import Mathlib

/-!
Verification of the import-hook processing core (`PyInstaller/building/imphook.py`).

The development shallowly embeds the Python source:

* `HooksCache` (the hook-artifact catalog) and `AdditionalFilesCache` (the
  asset ledger) are embedded as insertion-ordered association lists with
  replace-on-insert, matching Python `dict` semantics.
* `FakeModule` (the module proxy) is embedded as a structure whose mutating
  methods become pure state transformers.
* `ImportHook._process_excludedimports` (the exclusion pruner) is embedded
  over a finite dependency graph.  The dependency graph itself is an external
  collaborator of this module (it lives outside the embedded source file), so
  its primitives (`findNode`, `getReferers`, `removeReference`, `removeNode`,
  `nodes`, `flatten`) are modelled from the specification's description of the
  consumed graph interface.
* `_format_hook_datas` (the data-record expander) is embedded with the
  filesystem interaction (`glob.glob`, `os.walk`, `os.path.isfile`) abstracted
  as the expansion results; the pure path arithmetic (`os.path.join`,
  `os.path.normpath`, `os.path.relpath`, `os.path.basename`) is modelled from
  the POSIX path semantics the source relies on.
-/

/-- Python `s.startswith(pre)`: `pre` is a character-level prefix of `s`. -/
def pyStartsWith (s pre : String) : Bool :=
  pre.data.isPrefixOf s.data

/-! ### Character-level prefix helper lemmas -/

def alInsert {α : Type _} : List (String × α) → String → α → List (String × α)
  | [], k, v => [(k, v)]
  | e :: rest, k, v => if e.1 = k then (k, v) :: rest else e :: alInsert rest k v

def alLookup {α : Type _} (l : List (String × α)) (k : String) : Option α :=
  (l.find? (fun e => e.1 == k)).map (fun e => e.2)

structure Graph where
  nodes : Finset String
  edges : Finset (String × String)
  ext : Finset String
  filename : String → String

/-- Modelled from the spec: lookup-by-identifier, returning the node
(identified with its identifier) or not-found. -/
def findNode (g : Graph) (identifier : String) : Option String :=
  if identifier ∈ g.nodes then some identifier else none

/-- Modelled from the spec: referrers-of(node) — every node with an edge into
the given node. -/
def getReferers (g : Graph) (n : String) : Finset String :=
  (g.edges.filter (fun e => e.2 = n)).image Prod.fst

/-- Edges point between present nodes (the well-formedness every graph built
by the graph library satisfies). -/
def GraphWF (g : Graph) : Prop :=
  ∀ p ∈ g.edges, p.1 ∈ g.nodes ∧ p.2 ∈ g.nodes

instance (g : Graph) : Decidable (GraphWF g) := by
  unfold GraphWF
  infer_instance

def notAllowedReferences (name : String) (excl : List String) : List String :=
  name :: excl

def coveredRefsRemoved (name : String) (excl : List String) (eid : String) (g : Graph) :
    Graph :=
  { g with
    edges := g.edges.filter (fun e =>
      ¬ (e.2 = eid ∧ (notAllowedReferences name excl).any (fun na => pyStartsWith e.1 na) = true)) }

def safeToRemove (g : Graph) (name : String) (excl : List String) (eid : String) : Prop :=
  ∀ r ∈ getReferers g eid, ∀ na ∈ notAllowedReferences name excl,
    (pyStartsWith r na || pyStartsWith r eid) = true

instance (g : Graph) (name : String) (excl : List String) (eid : String) :
    Decidable (safeToRemove g name excl eid) := by
  unfold safeToRemove
  infer_instance

/-- The nodes of the graph whose identifier starts with `eid ++ "."`
(computed after the covered-referrer edge removals, which leave the node set
unchanged, so it is computed on the original node set). -/
def submodulesOf (g : Graph) (eid : String) : Finset String :=
  g.nodes.filter (fun s => pyStartsWith s (eid ++ ".") = true)

def submoduleRefsRemoved (g : Graph) (subs : Finset String) : Graph :=
  { g with edges := g.edges.filter (fun e => e.2 ∉ subs) }

def nodesRemoved (g : Graph) (s : Finset String) : Graph :=
  { g with nodes := g.nodes.filter (fun n => n ∉ s),
           edges := g.edges.filter (fun e => e.1 ∉ s ∧ e.2 ∉ s) }

def processExcludedItem (name : String) (excl : List String) (g : Graph) (item : String) :
    Graph :=
  match findNode g item with
  | none => g
  | some eid =>
    if safeToRemove g name excl eid then
      nodesRemoved
        (submoduleRefsRemoved (coveredRefsRemoved name excl eid g) (submodulesOf g eid))
        (insert eid (submodulesOf g eid))
    else coveredRefsRemoved name excl eid g

/-- `ImportHook._process_excludedimports`: process every name of the hook's
`excludedimports` list in order. -/
def processExcludedImports (name : String) (excl : List String) (g : Graph) : Graph :=
  excl.foldl (processExcludedItem name excl) g

/-! ### Branch equations and basic facts -/

/-- After processing, the excluded subtree rooted at `z` is gone: `z` is not a
node and no remaining node is a strict dotted-path descendant of `z`. -/
def cleanupDone (g : Graph) (z : String) : Prop :=
  z ∉ g.nodes ∧ ∀ d ∈ g.nodes, pyStartsWith d (z ++ ".") = false

/-- Every referrer of `z` is either prefixed by `z` itself or by all of the
`not_allowed_references` entries; this is exactly the condition under which
the source's referrer scan leaves `safe_to_remove` set. -/
def referrersCovered (g : Graph) (name : String) (excl : List String) (z : String) : Prop :=
  ∀ p ∈ g.edges, p.2 = z →
    (pyStartsWith p.1 z = true ∨
      ∀ na ∈ notAllowedReferences name excl, pyStartsWith p.1 na = true)

inductive NameArg where
  | one (s : String)
  | many (l : List String)

/-- `if not isinstance(names, list): names = [names]` — normalize a single
name or a list of names to a list. -/
def namesToList : NameArg → List String
  | NameArg.one s => [s]
  | NameArg.many l => l

structure FakeModule where
  name : String
  filePath : String
  co : String
  imports : List String
  binaries : List (String × String × String)
  datas : List (String × String × String)
  addedImports : List String
  deletedImports : List String
  addedBinaries : List (String × String × String)

/-- Modelled from the spec: one expansion step of transitive reachability —
add every edge target whose source is already reached. -/
def flattenStep (g : Graph) (s : Finset String) : Finset String :=
  s ∪ (g.edges.filter (fun e => e.1 ∈ s)).image Prod.snd

/-- Modelled from the spec: `flatten(start)` — everything transitively
reachable in the graph from the start node, as the fixed point of the
expansion step (enough iterations to saturate any graph of this size). -/
def flattenSet (g : Graph) (start : String) : Finset String :=
  (flattenStep g)^[g.nodes.card + g.edges.card + 1] {start}

/-- The reachable nodes in a deterministic traversal order. -/
def flatten (g : Graph) (start : String) : List String :=
  (flattenSet g start).sort (fun a b => a ≤ b)

/-- `FakeModule.__init__`: look the identifier up in the graph;
`assert(node is not None)` makes construction fail (modelled as `none`) when
the identifier does not resolve.  Otherwise the proxy snapshots `__file__`,
`co`, and classifies everything reachable from the node as an import
(ordinary code node) or a binary (`Extension` node). -/
def mkFakeModule (identifier : String) (g : Graph) : Option FakeModule :=
  match findNode g identifier with
  | none => none
  | some node =>
    some
      { name := identifier
        filePath := g.filename node
        co := g.filename node
        imports := (flatten g node).filter (fun i => decide (i ∉ g.ext))
        binaries := ((flatten g node).filter (fun i => decide (i ∈ g.ext))).map
          (fun i => (i, g.filename i, "BINARY"))
        datas := []
        addedImports := []
        deletedImports := []
        addedBinaries := [] }

/-- `FakeModule.add_import`: record the names in `_added_imports` (the commit
queue) *and* append them to the visible `imports` view. -/
def addImport (m : FakeModule) (names : NameArg) : FakeModule :=
  { m with
    addedImports := m.addedImports ++ namesToList names,
    imports := m.imports ++ namesToList names }

/-- `FakeModule.del_import`: only record the names in `_deleted_imports`
("just save to implement in graph later"); the visible `imports` view is not
touched. -/
def delImport (m : FakeModule) (names : NameArg) : FakeModule :=
  { m with deletedImports := m.deletedImports ++ namesToList names }

/-- `FakeModule.add_binary`: append to both the commit queue and the visible
`binaries` view. -/
def addBinary (m : FakeModule) (l : List (String × String × String)) : FakeModule :=
  { m with
    addedBinaries := m.addedBinaries ++ l,
    binaries := m.binaries ++ l }

/-- `FakeModule.add_data`: append to the proxy's pending `datas` list. -/
def addData (m : FakeModule) (l : List (String × String × String)) : FakeModule :=
  { m with datas := m.datas ++ l }

/-! ### `HooksCache` (the hook-artifact catalog)

A search root is abstracted as its path together with the basenames the
`glob.glob(os.path.join(path, 'hook-*.py'))` call yields in it, in glob
order.  `os.path.abspath` of a glob result under the root is the root path
joined with the basename. -/

structure SearchRoot where
  path : String
  hookFiles : List String

/-- Strip the prefix `hook-` (5 characters) and the suffix `.py`
(3 characters) from a hook file basename: `os.path.basename(f)[5:-3]`. -/
def hookKey (b : String) : String := (b.drop 5).dropRight 3

def abspathIn (root : SearchRoot) (f : String) : String := root.path ++ "/" ++ f

/-- `HooksCache._load_file_list`: for every matching file, record
`data[modname] = abspath(f)`. -/
def loadFileList (cache : List (String × String)) (root : SearchRoot) :
    List (String × String) :=
  root.hookFiles.foldl (fun d f => alInsert d (hookKey f) (abspathIn root f)) cache

/-- `HooksCache.add_custom_paths`: run `_load_file_list` on every root in
caller order. -/
def addCustomPaths (cache : List (String × String)) (roots : List SearchRoot) :
    List (String × String) :=
  roots.foldl loadFileList cache

/-- `HooksCache.remove`: de-duplicate the names (`set(names)`), then delete
each name that is present.  Deletion order does not matter, so the Python
set iteration is modelled by folding over the de-duplicated list. -/
def hooksCacheRemove (cache : List (String × String)) (names : List String) :
    List (String × String) :=
  names.eraseDups.foldl (fun d n => d.filter (fun e => e.1 != n)) cache

/-! ### `AdditionalFilesCache` (the asset ledger) -/

/-- `AdditionalFilesCache.add`: `data[modname] = {'binaries': …, 'datas': …}`. -/
def afcAdd {B D : Type _} (c : List (String × B × D)) (m : String) (b : B) (d : D) :
    List (String × B × D) :=
  alInsert c m (b, d)

/-- `AdditionalFilesCache.binaries`: `data[modname]['binaries']`; the
`KeyError` on an unrecorded module name is modelled as `none`. -/
def afcBinaries {B D : Type _} (c : List (String × B × D)) (m : String) : Option B :=
  (alLookup c m).map (fun e => e.1)

/-- `AdditionalFilesCache.datas`: `data[modname]['datas']`; the `KeyError` on
an unrecorded module name is modelled as `none`. -/
def afcDatas {B D : Type _} (c : List (String × B × D)) (m : String) : Option D :=
  (alLookup c m).map (fun e => e.2)

/-- A ledger built by a sequence of `add` calls starting from the empty
ledger. -/
def afcBuild {B D : Type _} (ops : List (String × B × D)) : List (String × B × D) :=
  ops.foldl (fun c e => afcAdd c e.1 e.2.1 e.2.2) []

/-! ### POSIX path arithmetic used by `_format_hook_datas`

`os.path.basename`, `os.path.join`, `os.path.normpath` and
`os.path.relpath` are modelled at the character level following the POSIX
(`posixpath`) semantics the source runs under. -/

def splitSlashAux : List Char → List Char → List String
  | [], acc => [⟨acc.reverse⟩]
  | c :: cs, acc =>
    if c = '/' then (⟨acc.reverse⟩ : String) :: splitSlashAux cs []
    else splitSlashAux cs (c :: acc)

/-- `p.split('/')`. -/
def splitSlash (p : String) : List String := splitSlashAux p.data []

/-- `'/'.join(comps)`. -/
def intercalateSlash : List String → String
  | [] => ""
  | [c] => c
  | c :: cs => c ++ "/" ++ intercalateSlash cs

/-- `os.path.basename(p)`: everything after the last slash. -/
def basename (p : String) : String := (splitSlash p).getLastD ""

/-- `os.path.join(a, b)` for one extra component `b`. -/
def joinPath (a b : String) : String :=
  if pyStartsWith b "/" then b
  else if a = "" then b
  else if a.data.getLast? = some '/' then a ++ b
  else a ++ "/" ++ b

/-- One step of POSIX `normpath`'s `..`-resolution over the already
normalized prefix. -/
def normCompsStep (isAbs : Bool) (acc : List String) (c : String) : List String :=
  if c = ".." then
    if acc = [] then (if isAbs then acc else acc ++ [c])
    else if acc.getLast? = some ".." then acc ++ [c]
    else acc.dropLast
  else acc ++ [c]

/-- `os.path.normpath(p)` (POSIX): split on slashes, drop empty and `.`
components, resolve `..` against preceding components, and re-join,
preserving (one or exactly two) leading slashes. -/
def normpath (p : String) : String :=
  let isAbs := pyStartsWith p "/"
  let comps := ((splitSlash p).filter (fun c => decide (c ≠ "" ∧ c ≠ "."))).foldl
    (normCompsStep isAbs) ([] : List String)
  let s := intercalateSlash comps
  let s :=
    if isAbs then
      (if pyStartsWith p "//" && !(pyStartsWith p "///") then "//" ++ s else "/" ++ s)
    else s
  if s = "" then "." else s

/-! ### `_format_hook_datas` (the data-record expander)

The filesystem is abstracted as the expansion results of one data spec:
`glob.glob(src_root_path_or_glob)` yields a list of matches, each either a
plain file (`os.path.isfile`) or a directory (`os.path.isdir`); `os.walk` of
a matched directory yields entries holding the walked directory (as its
component path relative to the matched root; `os.path.relpath(src_dir,
src_root_path)` is then the joined components, or `.` for the root itself,
and the `assert src_dir.startswith(src_root_path)` holds by construction)
together with the basenames of the regular files it directly contains (the
`os.path.isfile(src_file)` filter is folded into the abstraction). -/

structure WalkEntry where
  rel : List String
  files : List String
  deriving DecidableEq

inductive SrcMatch where
  | file (path : String)
  | dir (path : String) (walk : List WalkEntry)
  deriving DecidableEq

structure DataSpec where
  srcSpec : String
  globMatches : List SrcMatch
  trgDir : String
  deriving DecidableEq

/-- `os.path.relpath(src_dir, src_root_path)` for a walked directory given by
its components relative to the root. -/
def relPathStr (rel : List String) : String :=
  if rel = [] then "." else intercalateSlash rel

/-- The walked directory's own path (`src_dir` in the source). -/
def walkDirPath (root : String) (rel : List String) : String :=
  if rel = [] then root else root ++ "/" ++ intercalateSlash rel

/-- The records one `os.walk` entry contributes: the target directory is
`os.path.normpath(os.path.join(trg_root_dir, os.path.relpath(src_dir,
src_root_path)))` and each contained file lands at
`os.path.join(trg_dir, basename)`. -/
def walkEntryRecords (trgRoot root : String) (w : WalkEntry) : List (String × String) :=
  w.files.map (fun fb =>
    (joinPath (normpath (joinPath trgRoot (relPathStr w.rel))) fb,
     joinPath (walkDirPath root w.rel) fb))

/-- Records contributed by one glob match, given the current value of the
(mutable) `trg_root_dir` variable. -/
def expandMatch (trg : String) : SrcMatch → List (String × String)
  | SrcMatch.file p => [(joinPath trg (basename p), p)]
  | SrcMatch.dir p w =>
    (w.map (walkEntryRecords (if trg = "" then basename p else trg) p)).flatten

/-- The value of `trg_root_dir` after one glob match: the source reassigns it
to the matched directory's basename when it is still empty, and that
assignment persists for the remaining matches of the same spec. -/
def stepTrg (trg : String) : SrcMatch → String
  | SrcMatch.file _ => trg
  | SrcMatch.dir p _ => if trg = "" then basename p else trg

/-- All records of one spec: fold the matches threading `trg_root_dir`. -/
def expandMatches : String → List SrcMatch → List (String × String)
  | _, [] => []
  | trg, m :: ms => expandMatch trg m ++ expandMatches (stepTrg trg m) ms

/-- `_format_hook_datas`: expand every spec in order; a spec whose source
expands to no paths raises `FileNotFoundError`, aborting the whole call with
no output. -/
def formatHookDatas : List DataSpec → Except String (List (String × String))
  | [] => Except.ok []
  | s :: rest =>
    if s.globMatches = [] then
      Except.error ("Path or glob " ++ s.srcSpec ++ " not found or matches no files.")
    else
      match formatHookDatas rest with
      | Except.ok recs => Except.ok (expandMatches s.trgDir s.globMatches ++ recs)
      | Except.error msg => Except.error msg

/-! ### Catalog and ledger lemmas -/

def exampleGraphC1 : Graph :=
  ⟨{"pkg", "other", "ex"}, {("pkg", "ex"), ("other", "ex")}, ∅, fun _ => ""⟩

def exampleGraphC2 : Graph :=
  ⟨{"pkg", "ex"}, {("pkg", "ex")}, ∅, fun _ => ""⟩

def exampleGraphC2w : Graph :=
  ⟨{"ex", "ex.sub", "x"}, {("ex.sub", "ex"), ("x", "ex.sub")}, ∅, fun _ => ""⟩

def exampleGraphC3w : Graph :=
  ⟨{"foo", "foobar", "ex"}, {("foobar", "ex")}, ∅, fun _ => ""⟩

/-- A plain path component: nonempty, not a relative marker, and without a
slash. -/
def plainComp (s : String) : Prop :=
  s ≠ "" ∧ s ≠ "." ∧ s ≠ ".." ∧ ('/' : Char) ∉ s.data

instance (s : String) : Decidable (plainComp s) := by
  unfold plainComp
  infer_instance

/-- The basename of the first directory match, if any — the value the
(mutable) `trg_root_dir` receives at the first directory processed while the
target is still empty. -/
def firstDirBase : List SrcMatch → Option String
  | [] => none
  | SrcMatch.file _ :: ms => firstDirBase ms
  | SrcMatch.dir q _ :: _ => some (basename q)

def exampleSpecC6 : DataSpec :=
  ⟨"globpattern",
   [SrcMatch.dir "/a/p1" [⟨[], ["f.txt"]⟩], SrcMatch.dir "/a/p2" [⟨[], ["g.txt"]⟩]],
   ""⟩

/-! ### Theorems -/

theorem pyStartsWith_iff {s pre : String} :
    pyStartsWith s pre = true ↔ ∃ t, pre.data ++ t = s.data := by
  unfold pyStartsWith
  rw [ List.isPrefixOf_iff_prefix]
  exact Iff.rfl

/-- A string starting with `z ++ "."` also starts with `w ++ "."` whenever
`z` itself starts with `w ++ "."`. -/
theorem pyStartsWith_dot_trans {d z w : String}
    (h₁ : pyStartsWith d (z ++ ".") = true) (h₂ : pyStartsWith z (w ++ ".") = true) :
    pyStartsWith d (w ++ ".") = true := by
  rw [pyStartsWith_iff] at h₁ h₂ ⊢
  obtain ⟨t₁, h₁⟩ := h₁
  obtain ⟨t₂, h₂⟩ := h₂
  refine ⟨t₂ ++ ('.' : Char) :: t₁, ?_⟩
  rw [← h₁]
  simp only [String.data_append] at h₂ ⊢
  rw [← h₂]
  simp

/-- Every string starts with itself. -/
theorem pyStartsWith_self (s : String) : pyStartsWith s s = true := by
  rw [pyStartsWith_iff]; exact ⟨[], by simp⟩

/-! ### Insertion-ordered association lists (Python `dict` semantics)

`alInsert` replaces the value at an existing key in place (keeping its
position) and otherwise appends, exactly like assignment into a Python
`dict`; `alLookup` is `dict.__getitem__` made total with `Option`. -/

theorem alLookup_nil {α : Type _} (k : String) : alLookup ([] : List (String × α)) k = none := rfl

theorem alLookup_insert {α : Type _} (l : List (String × α)) (k k' : String) (v : α) :
    alLookup (alInsert l k v) k' = if k' = k then some v else alLookup l k' := by
  induction l with
  | nil =>
    by_cases h : k' = k
    · subst h
      simp [alInsert, alLookup]
    · have hbeq : (k == k') = false := by
        simp only [beq_eq_false_iff_ne, ne_eq]
        exact fun hh => h hh.symm
      simp [alInsert, alLookup, hbeq, h]
  | cons e rest ih =>
    simp only [alInsert]
    by_cases he : e.1 = k
    · rw [if_pos he]
      by_cases h : k' = k
      · subst h
        simp only [alLookup]
        rw [List.find?_cons_of_pos _ (by simp), List.find?_cons_of_pos _ (by simp [he])]
        simp
      · have h1 : ((k, v).1 == k') = false := by
          simp only [beq_eq_false_iff_ne, ne_eq]
          exact fun hh => h hh.symm
        have h2 : (e.1 == k') = false := by
          simp only [beq_eq_false_iff_ne, ne_eq, he]
          exact fun hh => h hh.symm
        simp only [alLookup]
        rw [List.find?_cons_of_neg _ (by simp [h1]), List.find?_cons_of_neg _ (by simp [h2]),
          if_neg h]
    · rw [if_neg he]
      by_cases h : e.1 = k'
      · have : ¬ k' = k := fun hh => he (h.trans hh)
        simp only [alLookup]
        rw [List.find?_cons_of_pos _ (by simp [h]), List.find?_cons_of_pos _ (by simp [h]),
          if_neg this]
      · simp only [alLookup] at ih ⊢
        rw [List.find?_cons_of_neg _ (by simp [h]), List.find?_cons_of_neg _ (by simp [h])]
        exact ih

/-! ### The dependency graph

Modelled from the spec: the dependency graph is an external collaborator of
`imphook.py`, consumed through `findNode`, `getReferers(node)`,
`removeReference(referrer, target)`, `removeNode(node)`, `nodes()` and
`flatten(start)`.  A graph is a finite set of node identifiers with a finite
edge relation (referrer, target); `ext` marks the nodes of type `Extension`,
and `filename` gives each node's recorded file path.  `removeNode` drops the
node together with its incident edges, as the underlying graph library does. -/

theorem mem_getReferers {g : Graph} {r n : String} :
    r ∈ getReferers g n ↔ (r, n) ∈ g.edges := by
  unfold getReferers
  simp only [Finset.mem_image, Finset.mem_filter]
  constructor
  · rintro ⟨e, ⟨he, h2⟩, h1⟩
    have : e = (r, n) := by
      cases e; simp_all
    exact this ▸ he
  · intro h
    exact ⟨(r, n), ⟨h, rfl⟩, rfl⟩

/-! ### `ImportHook._process_excludedimports`

The loop body for one name of `excludedimports` is translated as follows.
`not_allowed_references = [self._name] + self._module.excludedimports` is
`notAllowedReferences`.  The referrer scan snapshots `getReferers` once and
then (a) removes the edge `(r, excluded)` for every referrer `r` whose
identifier starts with some entry of `not_allowed_references`
(`coveredRefsRemoved` — the individual `removeReference` calls commute, so
they are modelled as one batch edge removal), and (b) leaves
`safe_to_remove = True` iff for every referrer and every `not_allowed` entry,
`r.identifier.startswith(not_allowed)` or `r.identifier.startswith(item)`
holds (`safeToRemove`; the flag is cleared inside the inner loop, hence the
conjunction over *all* entries).  When safe, the submodules — the nodes whose
identifier starts with `excluded_node.identifier + '.'` — first lose all of
their inbound edges (`submoduleRefsRemoved`) and then are removed together
with the top-level excluded node (`nodesRemoved`; the successive
`removeNode` calls commute, so they are one batch removal). -/

theorem processExcludedItem_of_not_mem {g : Graph} {name item : String} {excl : List String}
    (h : item ∉ g.nodes) : processExcludedItem name excl g item = g := by
  unfold processExcludedItem findNode
  simp [h]

theorem processExcludedItem_of_safe {g : Graph} {name item : String} {excl : List String}
    (h : item ∈ g.nodes) (hs : safeToRemove g name excl item) :
    processExcludedItem name excl g item
      = nodesRemoved
          (submoduleRefsRemoved (coveredRefsRemoved name excl item g) (submodulesOf g item))
          (insert item (submodulesOf g item)) := by
  unfold processExcludedItem findNode
  simp [h, hs]

theorem processExcludedItem_of_notSafe {g : Graph} {name item : String} {excl : List String}
    (h : item ∈ g.nodes) (hs : ¬ safeToRemove g name excl item) :
    processExcludedItem name excl g item = coveredRefsRemoved name excl item g := by
  unfold processExcludedItem findNode
  simp [h, hs]

theorem processExcludedItem_nodes_subset (name : String) (excl : List String) (g : Graph)
    (item : String) : (processExcludedItem name excl g item).nodes ⊆ g.nodes := by
  by_cases h : item ∈ g.nodes
  · by_cases hs : safeToRemove g name excl item
    · rw [processExcludedItem_of_safe h hs]
      exact Finset.filter_subset _ _
    · rw [processExcludedItem_of_notSafe h hs]
      exact Finset.Subset.refl _
  · rw [processExcludedItem_of_not_mem h]

theorem processExcludedItem_edges_subset (name : String) (excl : List String) (g : Graph)
    (item : String) : (processExcludedItem name excl g item).edges ⊆ g.edges := by
  by_cases h : item ∈ g.nodes
  · by_cases hs : safeToRemove g name excl item
    · rw [processExcludedItem_of_safe h hs]
      intro p hp
      simp only [nodesRemoved, submoduleRefsRemoved, coveredRefsRemoved,
        Finset.mem_filter] at hp
      exact hp.1.1.1
    · rw [processExcludedItem_of_notSafe h hs]
      exact Finset.filter_subset _ _
  · rw [processExcludedItem_of_not_mem h]

theorem processExcludedItem_wf {name : String} {excl : List String} {g : Graph}
    {item : String} (hwf : GraphWF g) : GraphWF (processExcludedItem name excl g item) := by
  by_cases h : item ∈ g.nodes
  · by_cases hs : safeToRemove g name excl item
    · rw [processExcludedItem_of_safe h hs]
      intro p hp
      simp only [nodesRemoved, submoduleRefsRemoved, coveredRefsRemoved,
        Finset.mem_filter] at hp ⊢
      obtain ⟨⟨⟨hpe, _⟩, _⟩, hp1, hp2⟩ := hp
      exact ⟨⟨(hwf p hpe).1, hp1⟩, (hwf p hpe).2, hp2⟩
    · rw [processExcludedItem_of_notSafe h hs]
      intro p hp
      simp only [coveredRefsRemoved, Finset.mem_filter] at hp
      exact hwf p hp.1
  · rw [processExcludedItem_of_not_mem h]
    exact hwf

/-! ### Cleanup and safety lemmas for the exclusion pruner -/

theorem cleanupDone_of_subset {g g' : Graph} {z : String}
    (h : cleanupDone g z) (hsub : g'.nodes ⊆ g.nodes) : cleanupDone g' z :=
  ⟨fun hz => h.1 (hsub hz), fun d hd => h.2 d (hsub hd)⟩

theorem referrersCovered_of_subset {g g' : Graph} {name z : String} {excl : List String}
    (h : referrersCovered g name excl z) (hsub : g'.edges ⊆ g.edges) :
    referrersCovered g' name excl z :=
  fun p hp hpz => h p (hsub hp) hpz

theorem safeToRemove_of_covered {g : Graph} {name z : String} {excl : List String}
    (h : referrersCovered g name excl z) : safeToRemove g name excl z := by
  intro r hr na hna
  have hedge : (r, z) ∈ g.edges := mem_getReferers.mp hr
  rcases h (r, z) hedge rfl with h1 | h2
  · simp [h1]
  · simp [h2 na hna]

/-- If a step of the pruner removes node `z`, it also removes every strict
dotted-path descendant of `z` (because `z` was removed either as the excluded
node itself or as one of its submodules, and descendants of submodules are
descendants of the excluded node). -/
theorem cleanupDone_of_removed {name : String} {excl : List String} {g : Graph}
    {item z : String} (hz : z ∈ g.nodes)
    (hz' : z ∉ (processExcludedItem name excl g item).nodes) :
    cleanupDone (processExcludedItem name excl g item) z := by
  by_cases hmem : item ∈ g.nodes
  · by_cases hs : safeToRemove g name excl item
    · rw [processExcludedItem_of_safe hmem hs] at hz' ⊢
      simp only [nodesRemoved, submoduleRefsRemoved, coveredRefsRemoved,
        Finset.mem_filter, not_and, not_not] at hz'
      have hzS : z ∈ insert item (submodulesOf g item) := hz' hz
      refine ⟨?_, ?_⟩
      · simp only [nodesRemoved, submoduleRefsRemoved, coveredRefsRemoved,
          Finset.mem_filter, not_and, not_not]
        intro _
        exact hzS
      · intro d hd
        simp only [nodesRemoved, submoduleRefsRemoved, coveredRefsRemoved,
          Finset.mem_filter] at hd
        obtain ⟨hdg, hdS⟩ := hd
        cases hx : pyStartsWith d (z ++ ".") with
        | false => rfl
        | true =>
          exfalso
          apply hdS
          rcases Finset.mem_insert.mp hzS with hzi | hzsub
          · subst hzi
            exact Finset.mem_insert.mpr (Or.inr (Finset.mem_filter.mpr ⟨hdg, hx⟩))
          · have hzdot : pyStartsWith z (item ++ ".") = true :=
              (Finset.mem_filter.mp hzsub).2
            have : pyStartsWith d (item ++ ".") = true := pyStartsWith_dot_trans hx hzdot
            exact Finset.mem_insert.mpr (Or.inr (Finset.mem_filter.mpr ⟨hdg, this⟩))
    · rw [processExcludedItem_of_notSafe hmem hs] at hz'
      exact absurd hz hz'
  · rw [processExcludedItem_of_not_mem hmem] at hz'
    exact absurd hz hz'

/-- Processing the excluded name `z` itself, when every referrer is covered,
removes the whole subtree rooted at `z`. -/
theorem cleanupDone_self_step {g : Graph} {name z : String} {excl : List String}
    (hz : z ∈ g.nodes) (hcov : referrersCovered g name excl z) :
    cleanupDone (processExcludedItem name excl g z) z := by
  have hs := safeToRemove_of_covered hcov
  apply cleanupDone_of_removed hz
  rw [processExcludedItem_of_safe hz hs]
  simp [nodesRemoved, Finset.mem_filter]

/-- In both branches of a step for `item`, the surviving edges avoid the
covered referrer edges into `item`. -/
theorem processExcludedItem_edges_subset_covered {name : String} {excl : List String}
    {g : Graph} {item : String} (hmem : item ∈ g.nodes) :
    (processExcludedItem name excl g item).edges
      ⊆ (coveredRefsRemoved name excl item g).edges := by
  by_cases hs : safeToRemove g name excl item
  · rw [processExcludedItem_of_safe hmem hs]
    intro p hp
    simp only [nodesRemoved, submoduleRefsRemoved, Finset.mem_filter] at hp
    exact hp.1.1
  · rw [processExcludedItem_of_notSafe hmem hs]

/-! ### Fold lemmas over the excluded-imports list -/

theorem foldl_nodes_subset (name : String) (excl : List String) (l : List String)
    (g : Graph) :
    (l.foldl (processExcludedItem name excl) g).nodes ⊆ g.nodes := by
  induction l generalizing g with
  | nil => exact Finset.Subset.refl _
  | cons a l ih =>
    exact (ih (processExcludedItem name excl g a)).trans
      (processExcludedItem_nodes_subset name excl g a)

theorem foldl_edges_subset (name : String) (excl : List String) (l : List String)
    (g : Graph) :
    (l.foldl (processExcludedItem name excl) g).edges ⊆ g.edges := by
  induction l generalizing g with
  | nil => exact Finset.Subset.refl _
  | cons a l ih =>
    exact (ih (processExcludedItem name excl g a)).trans
      (processExcludedItem_edges_subset name excl g a)

theorem foldl_wf {name : String} {excl : List String} {l : List String} {g : Graph}
    (hwf : GraphWF g) : GraphWF (l.foldl (processExcludedItem name excl) g) := by
  induction l generalizing g with
  | nil => exact hwf
  | cons a l ih => exact ih (processExcludedItem_wf hwf)

theorem foldl_cleanupDone {name z : String} {excl : List String} {l : List String}
    {g : Graph} (h : cleanupDone g z) :
    cleanupDone (l.foldl (processExcludedItem name excl) g) z :=
  cleanupDone_of_subset h (foldl_nodes_subset name excl l g)

/-- Main induction for the completeness direction: once the excluded name is
reached in the fold, its subtree is cleaned up, and the cleanup persists. -/
theorem foldl_cleanup_main {name z : String} {excl : List String} :
    ∀ (l : List String) (g : Graph), GraphWF g → referrersCovered g name excl z →
      (z ∈ g.nodes ∨ cleanupDone g z) → z ∈ l →
      cleanupDone (l.foldl (processExcludedItem name excl) g) z := by
  intro l
  induction l with
  | nil => intro g _ _ _ hl; exact absurd hl (List.not_mem_nil z)
  | cons a l ih =>
    intro g hwf hcov hstate hl
    simp only [List.foldl_cons]
    by_cases hal : z ∈ l
    · apply ih (processExcludedItem name excl g a)
      · exact processExcludedItem_wf hwf
      · exact referrersCovered_of_subset hcov (processExcludedItem_edges_subset name excl g a)
      · rcases hstate with hz | hdone
        · by_cases hz' : z ∈ (processExcludedItem name excl g a).nodes
          · exact Or.inl hz'
          · exact Or.inr (cleanupDone_of_removed hz hz')
        · exact Or.inr (cleanupDone_of_subset hdone
            (processExcludedItem_nodes_subset name excl g a))
      · exact hal
    · have ha : a = z := by
        rcases List.mem_cons.mp hl with h | h
        · exact h.symm
        · exact absurd h hal
      subst ha
      apply foldl_cleanupDone
      rcases hstate with hz | hdone
      · exact cleanupDone_self_step hz hcov
      · exact cleanupDone_of_subset hdone (processExcludedItem_nodes_subset name excl g a)

/-! ### `FakeModule` (the module proxy)

The proxy snapshots the graph at construction and accumulates pending deltas.
`imports` entries are `[identifier, 1, 0, -1]` in the source; the three
numeric components are constants, so an entry is modelled by its identifier.
`binaries` entries are `(identifier, filename, 'BINARY')` tuples.  The opaque
compiled-code object `co` is modelled by the path it was compiled from. -/

theorem mem_eraseDupsLoop {α : Type _} [BEq α] [LawfulBEq α] (as : List α) :
    ∀ (bs : List α) (k : α), (k ∈ List.eraseDups.loop as bs ↔ k ∈ as ∨ k ∈ bs) := by
  induction as with
  | nil => intro bs k; simp [List.eraseDups.loop]
  | cons a as ih =>
    intro bs k
    simp only [List.eraseDups.loop]
    cases he : bs.elem a
    · rw [ih (a :: bs) k]
      simp only [List.mem_cons]
      constructor
      · rintro (h | h | h)
        · exact Or.inl (Or.inr h)
        · exact Or.inl (Or.inl h)
        · exact Or.inr h
      · rintro ((h | h) | h)
        · exact Or.inr (Or.inl h)
        · exact Or.inl h
        · exact Or.inr (Or.inr h)
    · rw [ih bs k]
      have ha : a ∈ bs := by
        have := List.elem_iff.mp he
        exact this
      simp only [List.mem_cons]
      constructor
      · rintro (h | h)
        · exact Or.inl (Or.inr h)
        · exact Or.inr h
      · rintro ((h | h) | h)
        · exact Or.inr (h ▸ ha)
        · exact Or.inl h
        · exact Or.inr h

theorem mem_eraseDups {α : Type _} [BEq α] [LawfulBEq α] (l : List α) (k : α) :
    k ∈ l.eraseDups ↔ k ∈ l := by
  unfold List.eraseDups
  rw [mem_eraseDupsLoop]
  simp

theorem alLookup_filter_ne {α : Type _} (l : List (String × α)) (n k : String) :
    alLookup (l.filter (fun e => e.1 != n)) k = if k = n then none else alLookup l k := by
  induction l with
  | nil => simp [alLookup]
  | cons e rest ih =>
    by_cases hen : e.1 = n
    · have hcond : (e.1 != n) = false := by simp [hen]
      rw [List.filter_cons, hcond]
      simp only [Bool.false_eq_true, if_false]
      rw [ih]
      by_cases hk : k = n
      · simp [hk]
      · have : (e.1 == k) = false := by
          simp only [beq_eq_false_iff_ne, ne_eq, hen]
          exact fun hh => hk hh.symm
        simp [alLookup, List.find?, this, hk]
    · have hcond : (e.1 != n) = true := by simp [hen]
      rw [List.filter_cons, hcond]
      simp only [if_true]
      by_cases hek : e.1 = k
      · have hk : ¬ k = n := fun hh => hen (hek.trans hh)
        simp only [alLookup]
        rw [List.find?_cons_of_pos _ (by simp [hek]), List.find?_cons_of_pos _ (by simp [hek]),
          if_neg hk]
      · simp only [alLookup] at ih ⊢
        rw [List.find?_cons_of_neg _ (by simp [hek]), List.find?_cons_of_neg _ (by simp [hek])]
        exact ih

theorem alLookup_removeFold {α : Type _} (names : List String) (c : List (String × α))
    (k : String) :
    alLookup (names.foldl (fun d n => d.filter (fun e => e.1 != n)) c) k
      = if k ∈ names then none else alLookup c k := by
  induction names generalizing c with
  | nil => simp
  | cons n rest ih =>
    simp only [List.foldl_cons]
    rw [ih]
    by_cases hk : k ∈ rest
    · simp [hk]
    · rw [if_neg hk, alLookup_filter_ne]
      by_cases hkn : k = n
      · simp [hkn]
      · simp [hkn, hk]

theorem alLookup_foldl_insertBy {α β : Type _} (kf : β → String) (vf : β → α)
    (ops : List β) (c : List (String × α)) (k : String) :
    alLookup (ops.foldl (fun d e => alInsert d (kf e) (vf e)) c) k
      = ((ops.reverse.find? (fun e => kf e == k)).map vf).or (alLookup c k) := by
  induction ops generalizing c with
  | nil => simp
  | cons op rest ih =>
    simp only [List.foldl_cons, List.reverse_cons]
    rw [ih, List.find?_append, alLookup_insert]
    rcases hfind : rest.reverse.find? (fun e => kf e == k) with _ | e
    · simp only [Option.map_none, Option.none_or, Option.none_or]
      by_cases h : k = kf op
      · rw [List.find?_cons_of_pos _ (by simp [h])]
        simp [h]
      · have hbeq : (kf op == k) = false := by
          simp only [beq_eq_false_iff_ne, ne_eq]
          exact fun hh => h hh.symm
        simp [List.find?, hbeq, h]
    · simp

theorem loadFileList_lookup (c : List (String × String)) (root : SearchRoot) (k : String) :
    alLookup (loadFileList c root) k
      = ((root.hookFiles.reverse.find? (fun f => hookKey f == k)).map
          (abspathIn root)).or (alLookup c k) := by
  unfold loadFileList
  exact alLookup_foldl_insertBy hookKey (abspathIn root) root.hookFiles c k

theorem addCustomPaths_lookup (c : List (String × String)) (roots : List SearchRoot)
    (k : String) :
    alLookup (addCustomPaths c roots) k
      = (roots.reverse.findSome? (fun rt =>
          (rt.hookFiles.reverse.find? (fun f => hookKey f == k)).map (abspathIn rt))).or
          (alLookup c k) := by
  induction roots generalizing c with
  | nil => simp [addCustomPaths]
  | cons rt rest ih =>
    show alLookup (addCustomPaths (loadFileList c rt) rest) k = _
    rw [ih, loadFileList_lookup]
    simp only [List.reverse_cons, List.findSome?_append]
    rcases hf : rt.hookFiles.reverse.find? (fun f => hookKey f == k) with _ | f
    · simp [List.findSome?, hf]
    · simp [List.findSome?, hf, Option.or_assoc]

/-! ### Claim theorems: proxy, catalog, ledger -/

/-- C4: the proxy's import mutators are asymmetric.  For every proxy state
and every name or list of names, `add_import` appends each name both to the
visible `imports` view (so a subsequent read in the same callback sees it)
and to the `_added_imports` commit queue, while `del_import` only appends to
the `_deleted_imports` queue and leaves the visible `imports` view — and
every other part of the proxy — exactly unchanged. -/
theorem C4_addImport_delImport_asymmetric (m : FakeModule) (names : NameArg) :
    (addImport m names).imports = m.imports ++ namesToList names
    ∧ (addImport m names).addedImports = m.addedImports ++ namesToList names
    ∧ (delImport m names).deletedImports = m.deletedImports ++ namesToList names
    ∧ (delImport m names).imports = m.imports
    ∧ (delImport m names).binaries = m.binaries
    ∧ (delImport m names).datas = m.datas
    ∧ (delImport m names).addedImports = m.addedImports
    ∧ (delImport m names).addedBinaries = m.addedBinaries :=
  ⟨rfl, rfl, rfl, rfl, rfl, rfl, rfl, rfl⟩

/-- C10: `FakeModule.__init__` succeeds exactly on resolvable identifiers:
construction yields a proxy iff `findNode` resolves the identifier, i.e. iff
the identifier is a node of the graph; otherwise the
`assert(node is not None)` fails (modelled as `none`). -/
theorem C10_mkFakeModule_requires_resolvable (identifier : String) (g : Graph) :
    ((mkFakeModule identifier g).isSome = (findNode g identifier).isSome)
    ∧ (mkFakeModule identifier g = none ↔ identifier ∉ g.nodes) := by
  unfold mkFakeModule findNode
  by_cases h : identifier ∈ g.nodes <;> simp [h]

/-- C9: `HooksCache.remove` is exact and total.  For every cache, every list
of names (duplicates and unknown names allowed) and every key, the key maps
to nothing afterwards iff it is in the list, and every other entry is
unchanged; removal of the de-duplicated list is the same operation, so the
internal `set(names)` de-duplication is observationally sound, and the
function is total (never raises). -/
theorem C9_hooksCacheRemove_exact (c : List (String × String)) (names : List String)
    (k : String) :
    alLookup (hooksCacheRemove c names) k = (if k ∈ names then none else alLookup c k)
    ∧ alLookup (hooksCacheRemove c names) k
        = alLookup (hooksCacheRemove c (names ++ names)) k := by
  have key : ∀ (l : List String),
      alLookup (hooksCacheRemove c l) k = if k ∈ l then none else alLookup c k := by
    intro l
    unfold hooksCacheRemove
    rw [alLookup_removeFold]
    by_cases hk : k ∈ l
    · rw [if_pos ((mem_eraseDups l k).mpr hk), if_pos hk]
    · rw [if_neg (fun hh => hk ((mem_eraseDups l k).mp hh)), if_neg hk]
  refine ⟨key names, ?_⟩
  rw [key names, key (names ++ names)]
  by_cases hk : k ∈ names
  · rw [if_pos hk, if_pos (List.mem_append.mpr (Or.inl hk))]
  · rw [if_neg hk, if_neg (fun hh => hk (by
      rcases List.mem_append.mp hh with h | h <;> exact h))]

/-- C5: catalog loading is idempotent with last-writer-wins.  Loading the
same search root twice yields the same identifier-to-path mapping as loading
it once; and after `add_custom_paths`, an identifier maps to the hook path
contributed by the latest applied root containing a matching artifact
(`roots.reverse.findSome?` — last root wins; within one root, the last
matching glob entry wins), falling back to the prior cache contents. -/
theorem C5_hooksCache_idempotent_last_writer_wins (c : List (String × String))
    (r : SearchRoot) (roots : List SearchRoot) (k : String) :
    alLookup (loadFileList (loadFileList c r) r) k = alLookup (loadFileList c r) k
    ∧ alLookup (addCustomPaths c roots) k
        = (roots.reverse.findSome? (fun rt =>
            (rt.hookFiles.reverse.find? (fun f => hookKey f == k)).map
              (abspathIn rt))).or (alLookup c k) := by
  refine ⟨?_, addCustomPaths_lookup c roots k⟩
  rw [loadFileList_lookup, loadFileList_lookup]
  rcases hf : r.hookFiles.reverse.find? (fun f => hookKey f == k) with _ | f
  · simp
  · simp

/-- C8: ledger lookup fails exactly when unrecorded.  For a ledger built by
any sequence of `add` calls, `binaries`/`datas` return the collections of
the most recent `add` for the identifier (`none` — the `KeyError` — exactly
when the identifier never appears among the record calls), and one `add`
leaves every other identifier's entry unchanged. -/
theorem C8_ledger_lookup_iff_recorded {B D : Type _} (ops : List (String × B × D))
    (m m' : String) (c : List (String × B × D)) (b : B) (d : D) :
    afcBinaries (afcBuild ops) m
        = (ops.reverse.find? (fun e => e.1 == m)).map (fun e => e.2.1)
    ∧ afcDatas (afcBuild ops) m
        = (ops.reverse.find? (fun e => e.1 == m)).map (fun e => e.2.2)
    ∧ (afcBinaries (afcBuild ops) m = none ↔ m ∉ ops.map (fun e => e.1))
    ∧ (afcBinaries (afcAdd c m b d) m' = if m' = m then some b else afcBinaries c m')
    ∧ (afcDatas (afcAdd c m b d) m' = if m' = m then some d else afcDatas c m') := by
  have hbuild : alLookup (afcBuild ops) m
      = ((ops.reverse.find? (fun e => e.1 == m)).map (fun e => (e.2.1, e.2.2))).or
          (alLookup ([] : List (String × B × D)) m) := by
    show alLookup (ops.foldl (fun c e => alInsert c e.1 (e.2.1, e.2.2)) []) m = _
    exact alLookup_foldl_insertBy (fun e => e.1) (fun e => (e.2.1, e.2.2)) ops [] m
  rw [alLookup_nil] at hbuild
  refine ⟨?_, ?_, ?_, ?_, ?_⟩
  · unfold afcBinaries
    rw [hbuild]
    rcases hf : ops.reverse.find? (fun e => e.1 == m) with _ | e <;> rw [hf] <;> simp
  · unfold afcDatas
    rw [hbuild]
    rcases hf : ops.reverse.find? (fun e => e.1 == m) with _ | e <;> rw [hf] <;> simp
  · unfold afcBinaries
    rw [hbuild]
    rcases hf : ops.reverse.find? (fun e => e.1 == m) with _ | e
    · rw [hf]
      have hnm : m ∉ ops.map (fun e => e.1) := by
        intro hmem
        obtain ⟨e, he, hem⟩ := List.mem_map.mp hmem
        have := List.find?_eq_none.mp hf e (List.mem_reverse.mpr he)
        simp [hem] at this
      simp [hnm]
    · rw [hf]
      have hmem : m ∈ ops.map (fun e => e.1) := by
        have h1 := List.mem_reverse.mp (List.mem_of_find?_eq_some hf)
        have h2 := List.find?_some hf
        simp only [beq_iff_eq] at h2
        exact List.mem_map.mpr ⟨e, h1, h2⟩
      simp [hmem]
  · unfold afcBinaries afcAdd
    rw [alLookup_insert]
    by_cases h : m' = m <;> simp [h]
  · unfold afcDatas afcAdd
    rw [alLookup_insert]
    by_cases h : m' = m <;> simp [h]

/-! ### Claim theorems: exclusion pruning -/

/-- Auxiliary for C3: once the excluded item is in the list and the referrer
is covered by a raw string prefix of a `not_allowed_references` entry, the
edge `(r, item)` is absent from the final graph. -/
theorem foldl_edge_removed_main {name r item : String} {excl : List String}
    (hany : (notAllowedReferences name excl).any (fun na => pyStartsWith r na) = true) :
    ∀ (l : List String) (g : Graph), GraphWF g →
      ((r, item) ∉ g.edges ∨ item ∈ g.nodes) → item ∈ l →
      (r, item) ∉ (l.foldl (processExcludedItem name excl) g).edges := by
  intro l
  induction l with
  | nil => intro g _ _ hl; exact absurd hl (List.not_mem_nil item)
  | cons a l ih =>
    intro g hwf hstate hl
    simp only [List.foldl_cons]
    by_cases hal : item ∈ l
    · refine ih (processExcludedItem name excl g a) (processExcludedItem_wf hwf) ?_ hal
      rcases hstate with hne | hz
      · exact Or.inl (fun h => hne (processExcludedItem_edges_subset name excl g a h))
      · by_cases hz' : item ∈ (processExcludedItem name excl g a).nodes
        · exact Or.inr hz'
        · refine Or.inl (fun h => ?_)
          have hdone := cleanupDone_of_removed hz hz'
          exact hdone.1 ((processExcludedItem_wf hwf _ h).2)
    · have ha : a = item := by
        rcases List.mem_cons.mp hl with h | h
        · exact h.symm
        · exact absurd h hal
      subst ha
      have hgone : (r, a) ∉ (processExcludedItem name excl g a).edges := by
        rcases hstate with hne | hz
        · exact fun h => hne (processExcludedItem_edges_subset name excl g a h)
        · intro h
          have hsub := processExcludedItem_edges_subset_covered hz h
          simp only [coveredRefsRemoved] at hsub
          exact (Finset.mem_filter.mp hsub).2 ⟨rfl, hany⟩
      exact fun h => hgone (foldl_edges_subset name excl l _ h)

/-- C3: referrer classification uses raw string prefixes with no dotted-path
boundary.  If a referrer's identifier begins — as a plain string prefix, with
no dotted-path boundary required — with the requesting package's identifier
or with any name of the exclusion list, then after
`_process_excludedimports` its edge to the excluded node is removed. -/
theorem C3_raw_prefix_reference_removed (g : Graph) (name item r : String)
    (excl : List String) (hwf : GraphWF g) (hitem : item ∈ excl) (hn : item ∈ g.nodes)
    (_hr : (r, item) ∈ g.edges)
    (hcov : pyStartsWith r name = true ∨ ∃ na ∈ excl, pyStartsWith r na = true) :
    (r, item) ∉ (processExcludedImports name excl g).edges := by
  have hany : (notAllowedReferences name excl).any (fun na => pyStartsWith r na) = true := by
    rw [List.any_eq_true]
    rcases hcov with h | ⟨na, hna, h⟩
    · exact ⟨name, List.mem_cons_self _ _, h⟩
    · exact ⟨na, List.mem_cons_of_mem _ hna, h⟩
  exact foldl_edge_removed_main hany excl g hwf (Or.inr hn) hitem

/-- C3 witness: the referrer `foobar` is not a dotted-path member of the
requesting package `foo`, yet its raw string prefix match removes its edge to
the excluded node `ex`. -/
theorem C3_raw_prefix_reference_removed_witness :
    ("foobar", "ex") ∉ (processExcludedImports "foo" ["ex"] exampleGraphC3w).edges
    ∧ pyStartsWith "foobar" "foo" = true
    ∧ pyStartsWith "foobar" ("foo" ++ ".") = false := by
  refine ⟨C3_raw_prefix_reference_removed exampleGraphC3w "foo" "ex" "foobar" ["ex"]
    (by decide) (by decide) (by decide) (by decide) (Or.inl (by decide)), by decide, by decide⟩

/-- C2 as amended: the excluded subtree is removed when every referrer of the
excluded node is prefixed either by the excluded name itself or by *all* of
the `not_allowed_references` entries (the requesting name and every name of
the exclusion list) — the source clears `safe_to_remove` inside the loop over
`not_allowed_references`, so coverage by just one entry is not enough.  Then
the node, every strict dotted-path descendant, and every edge into any of
them are absent from the final graph. -/
theorem C2_amended_subtree_removed_when_strongly_covered
    (g : Graph) (name z : String) (excl : List String)
    (hwf : GraphWF g) (hzl : z ∈ excl) (hz : z ∈ g.nodes)
    (hcov : ∀ p ∈ g.edges, p.2 = z →
      (pyStartsWith p.1 z = true ∨
        ∀ na ∈ notAllowedReferences name excl, pyStartsWith p.1 na = true)) :
    z ∉ (processExcludedImports name excl g).nodes
    ∧ (∀ d, pyStartsWith d (z ++ ".") = true →
        d ∉ (processExcludedImports name excl g).nodes)
    ∧ (∀ p ∈ (processExcludedImports name excl g).edges,
        p.2 ≠ z ∧ pyStartsWith p.2 (z ++ ".") = false) := by
  have hdone : cleanupDone (processExcludedImports name excl g) z :=
    foldl_cleanup_main excl g hwf hcov (Or.inl hz) hzl
  have hwf' : GraphWF (processExcludedImports name excl g) := foldl_wf hwf
  refine ⟨hdone.1, ?_, ?_⟩
  · intro d hd hmem
    have h2 := hdone.2 d hmem
    rw [hd] at h2
    simp at h2
  · intro p hp
    have h2 := (hwf' p hp).2
    exact ⟨fun hpe => hdone.1 (hpe ▸ h2), hdone.2 _ h2⟩

/-- C2 counterexample: in the graph with the single edge `pkg → ex`, every
referrer of the excluded node `ex` is prefixed by the requesting package
`pkg`, so the claim's disjunctive coverage condition holds; yet the node `ex`
is still present after `_process_excludedimports` (the source clears
`safe_to_remove` when the referrer fails the `startswith` test against the
entry `ex` of `not_allowed_references`). -/
theorem C2_counterexample :
    (∀ p ∈ exampleGraphC2.edges, p.2 = "ex" → pyStartsWith p.1 "pkg" = true)
    ∧ "ex" ∈ (processExcludedImports "pkg" ["ex"] exampleGraphC2).nodes := by
  decide

/-- C2 witness for the amended theorem: referrer `ex.sub` is prefixed by the
excluded name itself, so removal is safe and the subtree (`ex`, `ex.sub`,
and the edge into `ex.sub`) disappears. -/
theorem C2_amended_witness :
    "ex" ∉ (processExcludedImports "pkg" ["ex"] exampleGraphC2w).nodes
    ∧ "ex.sub" ∉ (processExcludedImports "pkg" ["ex"] exampleGraphC2w).nodes
    ∧ ("x", "ex.sub") ∉ (processExcludedImports "pkg" ["ex"] exampleGraphC2w).edges := by
  have h := C2_amended_subtree_removed_when_strongly_covered exampleGraphC2w "pkg" "ex"
    ["ex"] (by decide) (by decide) (by decide) (by decide)
  refine ⟨h.1, h.2.1 "ex.sub" (by decide), fun hmem => ?_⟩
  exact absurd ((h.2.2 ("x", "ex.sub") hmem).2) (by decide)

/-- C1 as amended, for a single-name exclusion request resolving to node `e`:
if some referrer `r` is an independent consumer (prefixed neither by the
requesting name nor by the excluded name), then `_process_excludedimports`
removes no node at all — `e` and every descendant stay present — removes no
edge whose target is not `e` (so all edges into descendants are unchanged),
keeps the independent referrer's edge into `e`, and the only edges it removes
are edges into `e` from referrers covered by a raw prefix of the requesting
name or the excluded name.  (The original claim's "reachable exactly as
before" fails: those covered edges into `e` are removed even in the unsafe
case, and with multi-name requests `e` can even be removed as a descendant
of another excluded name.) -/
theorem C1_amended_unsafe_exclusion_preserves_nodes
    (g : Graph) (name e r : String)
    (he : e ∈ g.nodes) (hr : (r, e) ∈ g.edges)
    (hr1 : pyStartsWith r name = false) (hr2 : pyStartsWith r e = false) :
    ((processExcludedImports name [e] g).nodes = g.nodes)
    ∧ ((processExcludedImports name [e] g).edges ⊆ g.edges)
    ∧ (∀ p ∈ g.edges, p.2 ≠ e → p ∈ (processExcludedImports name [e] g).edges)
    ∧ ((r, e) ∈ (processExcludedImports name [e] g).edges)
    ∧ (∀ p ∈ g.edges, p ∉ (processExcludedImports name [e] g).edges →
        p.2 = e ∧ (pyStartsWith p.1 name = true ∨ pyStartsWith p.1 e = true)) := by
  have hstep : processExcludedImports name [e] g = processExcludedItem name [e] g e := by
    unfold processExcludedImports
    simp
  have hnotSafe : ¬ safeToRemove g name [e] e := by
    intro hs
    have href : r ∈ getReferers g e := mem_getReferers.mpr hr
    have hcontra := hs r href name (by simp [notAllowedReferences])
    rw [hr1, hr2] at hcontra
    simp at hcontra
  rw [hstep, processExcludedItem_of_notSafe he hnotSafe]
  simp only [coveredRefsRemoved]
  refine ⟨by simp, Finset.filter_subset _ _, ?_, ?_, ?_⟩
  · intro p hp hne
    refine Finset.mem_filter.mpr ⟨hp, ?_⟩
    intro hand
    exact hne hand.1
  · refine Finset.mem_filter.mpr ⟨hr, ?_⟩
    intro hand
    have hany := hand.2
    simp only [notAllowedReferences, List.any_cons, List.any_nil] at hany
    rw [hr1, hr2] at hany
    simp at hany
  · intro p hp hnotin
    have hpred : ¬ ¬ (p.2 = e ∧
        (notAllowedReferences name [e]).any (fun na => pyStartsWith p.1 na) = true) := by
      intro hpred
      exact hnotin (Finset.mem_filter.mpr ⟨hp, hpred⟩)
    rw [not_not] at hpred
    obtain ⟨hpe, hany⟩ := hpred
    refine ⟨hpe, ?_⟩
    rw [List.any_eq_true] at hany
    obtain ⟨na, hna, hstart⟩ := hany
    simp only [notAllowedReferences, List.mem_cons, List.not_mem_nil, or_false] at hna
    rcases hna with rfl | rfl
    · exact Or.inl hstart
    · exact Or.inr hstart

/-- C1 counterexample: `other` is an independent referrer of the excluded
node `ex` (prefixed by neither the requesting name `pkg`, the exclusion list
`["ex"]`, nor `ex` itself), yet `_process_excludedimports` removes the edge
from `pkg` to `ex`: afterwards `ex` is no longer reachable from `pkg`, so
`ex` is present but *not* reachable exactly as it was before the call. -/
theorem C1_counterexample :
    (pyStartsWith "other" "pkg" = false ∧ pyStartsWith "other" "ex" = false
      ∧ ("other", "ex") ∈ exampleGraphC1.edges)
    ∧ ("pkg", "ex") ∈ exampleGraphC1.edges
    ∧ "ex" ∈ flattenSet exampleGraphC1 "pkg"
    ∧ ("pkg", "ex") ∉ (processExcludedImports "pkg" ["ex"] exampleGraphC1).edges
    ∧ "ex" ∉ flattenSet (processExcludedImports "pkg" ["ex"] exampleGraphC1) "pkg" := by
  decide

/-- C1 amended witness at the same concrete graph: the node set is untouched
and the independent referrer's edge survives. -/
theorem C1_amended_witness :
    ((processExcludedImports "pkg" ["ex"] exampleGraphC1).nodes = exampleGraphC1.nodes)
    ∧ ("other", "ex") ∈ (processExcludedImports "pkg" ["ex"] exampleGraphC1).edges := by
  have h := C1_amended_unsafe_exclusion_preserves_nodes exampleGraphC1 "pkg" "ex" "other"
    (by decide) (by decide) (by decide) (by decide)
  exact ⟨h.1, h.2.2.2.1⟩

/-! ### Path lemmas for the data-record expander -/

theorem string_eq_empty_iff {s : String} : s = "" ↔ s.data = [] := by
  cases s with
  | mk l =>
    constructor
    · intro h
      rw [h]
    · intro h
      simp only at h
      rw [show ("" : String) = ⟨[]⟩ from rfl, h]

theorem splitSlashAux_no_slash (xs : List Char) (h : ∀ c ∈ xs, c ≠ '/') :
    ∀ acc : List Char, splitSlashAux xs acc = [⟨acc.reverse ++ xs⟩] := by
  induction xs with
  | nil => intro acc; simp [splitSlashAux]
  | cons c cs ih =>
    intro acc
    have hc : c ≠ '/' := h c (List.mem_cons_self c cs)
    simp only [splitSlashAux, if_neg hc]
    rw [ih (fun x hx => h x (List.mem_cons_of_mem c hx)) (c :: acc)]
    simp

theorem splitSlashAux_split (xs : List Char) (ys : List Char) (h : ∀ c ∈ xs, c ≠ '/') :
    ∀ acc : List Char,
      splitSlashAux (xs ++ '/' :: ys) acc = (⟨acc.reverse ++ xs⟩ : String) :: splitSlashAux ys [] := by
  induction xs with
  | nil =>
    intro acc
    simp [splitSlashAux]
  | cons c cs ih =>
    intro acc
    have hc : c ≠ '/' := h c (List.mem_cons_self c cs)
    simp only [List.cons_append, splitSlashAux, if_neg hc]
    simpa using ih (fun x hx => h x (List.mem_cons_of_mem c hx)) (c :: acc)

theorem splitSlash_no_slash (s : String) (h : ('/' : Char) ∉ s.data) :
    splitSlash s = [s] := by
  unfold splitSlash
  rw [splitSlashAux_no_slash s.data (fun c hc hcs => h (hcs ▸ hc)) []]
  simp

theorem splitSlash_append (b rest : String) (h : ('/' : Char) ∉ b.data) :
    splitSlash (b ++ "/" ++ rest) = b :: splitSlash rest := by
  unfold splitSlash
  have hdata : (b ++ "/" ++ rest).data = b.data ++ '/' :: rest.data := by
    simp [String.data_append]
  rw [hdata, splitSlashAux_split b.data rest.data (fun c hc hcs => h (hcs ▸ hc)) []]
  simp

theorem intercalateSlash_cons_cons (c c2 : String) (cs : List String) :
    intercalateSlash (c :: c2 :: cs) = c ++ "/" ++ intercalateSlash (c2 :: cs) := by
  rfl

theorem intercalateSlash_data_ne_nil (c : String) (cs : List String) (hc : c ≠ "") :
    (intercalateSlash (c :: cs)).data ≠ [] := by
  cases cs with
  | nil =>
    simp only [intercalateSlash]
    exact fun h => hc (string_eq_empty_iff.mpr h)
  | cons c2 cs2 =>
    rw [intercalateSlash_cons_cons]
    simp only [String.data_append]
    intro h
    have := List.append_eq_nil.mp h
    exact hc (string_eq_empty_iff.mpr (List.append_eq_nil.mp this.1).1)

theorem splitSlash_intercalate (l : List String) (hne : l ≠ [])
    (h : ∀ c ∈ l, ('/' : Char) ∉ c.data) :
    splitSlash (intercalateSlash l) = l := by
  induction l with
  | nil => exact absurd rfl hne
  | cons c cs ih =>
    cases cs with
    | nil =>
      simp only [intercalateSlash]
      exact splitSlash_no_slash c (h c (List.mem_cons_self c []))
    | cons c2 cs2 =>
      rw [intercalateSlash_cons_cons,
        splitSlash_append c (intercalateSlash (c2 :: cs2)) (h c (List.mem_cons_self _ _)),
        ih (by simp) (fun x hx => h x (List.mem_cons_of_mem c hx))]

theorem pyStartsWith_slash_false (s : String) (h : ('/' : Char) ∉ s.data) :
    pyStartsWith s "/" = false := by
  unfold pyStartsWith
  show List.isPrefixOf ['/'] s.data = false
  cases hd : s.data with
  | nil => rfl
  | cons c cs =>
    have hc : c ≠ '/' := by
      intro hch
      exact h (hd ▸ (hch ▸ List.mem_cons_self c cs))
    simp only [List.isPrefixOf, Bool.and_eq_false_iff]
    left
    simp only [beq_eq_false_iff_ne, ne_eq]
    exact fun hh => hc hh.symm

theorem pyStartsWith_slash_false_of_head {s : String} {c : Char} {cs : List Char}
    (hd : s.data = c :: cs) (hc : c ≠ '/') : pyStartsWith s "/" = false := by
  unfold pyStartsWith
  show List.isPrefixOf ['/'] s.data = false
  rw [hd]
  simp only [List.isPrefixOf, Bool.and_eq_false_iff]
  left
  simp only [beq_eq_false_iff_ne, ne_eq]
  exact fun hh => hc hh.symm

theorem intercalate_data_ext (b : String) (rest : List String) :
    ∃ t, (intercalateSlash (b :: rest)).data = b.data ++ t := by
  cases rest with
  | nil => exact ⟨[], by simp [intercalateSlash]⟩
  | cons c2 cs2 =>
    refine ⟨'/' :: (intercalateSlash (c2 :: cs2)).data, ?_⟩
    rw [intercalateSlash_cons_cons]
    simp [String.data_append]

theorem intercalate_no_abs (b : String) (rest : List String) (hb : plainComp b) :
    pyStartsWith (intercalateSlash (b :: rest)) "/" = false := by
  obtain ⟨t, ht⟩ := intercalate_data_ext b rest
  rcases hd : b.data with _ | ⟨c, cs⟩
  · exact absurd (string_eq_empty_iff.mpr hd) hb.1
  · have hc : c ≠ '/' := by
      intro hch
      exact hb.2.2.2 (hd ▸ (hch ▸ List.mem_cons_self c cs))
    rw [hd] at ht
    have ht' : (intercalateSlash (b :: rest)).data = c :: (cs ++ t) := by
      rw [ht]
      simp
    exact pyStartsWith_slash_false_of_head ht' hc

theorem foldl_normCompsStep_no_dotdot (isAbs : Bool) (l : List String)
    (h : ∀ c ∈ l, c ≠ "..") :
    ∀ acc, l.foldl (normCompsStep isAbs) acc = acc ++ l := by
  induction l with
  | nil => intro acc; simp
  | cons c cs ih =>
    intro acc
    have hc : c ≠ ".." := h c (List.mem_cons_self c cs)
    simp only [List.foldl_cons, normCompsStep, if_neg hc]
    rw [ih (fun x hx => h x (List.mem_cons_of_mem c hx))]
    simp

theorem intercalate_ne_empty (b : String) (rest : List String) (hb : b ≠ "") :
    intercalateSlash (b :: rest) ≠ "" := by
  intro hcontra
  exact intercalateSlash_data_ne_nil b rest hb (string_eq_empty_iff.mp hcontra)

theorem normpath_intercalate_plain (l : List String) (hne : l ≠ [])
    (h : ∀ c ∈ l, plainComp c) :
    normpath (intercalateSlash l) = intercalateSlash l := by
  obtain ⟨b, rest, rfl⟩ : ∃ b rest, l = b :: rest := by
    cases l with
    | nil => exact absurd rfl hne
    | cons b rest => exact ⟨b, rest, rfl⟩
  have hb := h b (List.mem_cons_self b rest)
  have habs : pyStartsWith (intercalateSlash (b :: rest)) "/" = false :=
    intercalate_no_abs b rest hb
  unfold normpath
  simp only [habs]
  rw [splitSlash_intercalate (b :: rest) (by simp) (fun c hc => (h c hc).2.2.2)]
  rw [List.filter_eq_self.mpr (fun c hc => by
    simp only [decide_eq_true_eq]
    exact ⟨(h c hc).1, (h c hc).2.1⟩)]
  rw [foldl_normCompsStep_no_dotdot false (b :: rest) (fun c hc => (h c hc).2.2.1) []]
  simp only [List.nil_append, Bool.false_eq_true, if_false]
  rw [if_neg (intercalate_ne_empty b rest hb.1)]

theorem joinPath_of_plain_parts (a c : String) (ha : a ≠ "")
    (hlast : a.data.getLast? ≠ some '/') (hc : pyStartsWith c "/" = false) :
    joinPath a c = a ++ "/" ++ c := by
  unfold joinPath
  simp [hc, ha, hlast]

theorem intercalate_getLast_ne_slash (l : List String) (h : ∀ c ∈ l, plainComp c) :
    (intercalateSlash l).data.getLast? ≠ some '/' := by
  induction l with
  | nil => simp [intercalateSlash]
  | cons c cs ih =>
    cases cs with
    | nil =>
      simp only [intercalateSlash]
      intro hl
      exact (h c (List.mem_cons_self c [])).2.2.2 (List.mem_of_getLast?_eq_some hl)
    | cons c2 cs2 =>
      rw [intercalateSlash_cons_cons]
      have hne : (intercalateSlash (c2 :: cs2)).data ≠ [] :=
        intercalateSlash_data_ne_nil c2 cs2 (h c2 (by simp)).1
      have hdata : (c ++ "/" ++ intercalateSlash (c2 :: cs2)).data
          = (c.data ++ ['/']) ++ (intercalateSlash (c2 :: cs2)).data := by
        simp [String.data_append]
      rw [hdata, List.getLast?_append_of_ne_nil _ hne]
      exact ih (fun x hx => h x (List.mem_cons_of_mem c hx))

theorem normpath_join_plain (b : String) (comps : List String) (hb : plainComp b)
    (hc : ∀ c ∈ comps, plainComp c) :
    normpath (joinPath b (relPathStr comps)) = intercalateSlash (b :: comps) := by
  have hlast : b.data.getLast? ≠ some '/' :=
    fun hl => hb.2.2.2 (List.mem_of_getLast?_eq_some hl)
  cases comps with
  | nil =>
    have hrel : relPathStr ([] : List String) = "." := rfl
    rw [hrel, joinPath_of_plain_parts b "." hb.1 hlast (by decide)]
    obtain ⟨c, cs, hd⟩ : ∃ c cs, b.data = c :: cs := by
      rcases hdd : b.data with _ | ⟨c, cs⟩
      · exact absurd (string_eq_empty_iff.mpr hdd) hb.1
      · exact ⟨c, cs, rfl⟩
    have hcne : c ≠ '/' := by
      intro hch
      exact hb.2.2.2 (hd ▸ (hch ▸ List.mem_cons_self c cs))
    have habs : pyStartsWith (b ++ "/" ++ ".") "/" = false := by
      refine @pyStartsWith_slash_false_of_head _ c (cs ++ ['/', '.']) ?_ hcne
      simp [String.data_append, hd]
    unfold normpath
    simp only [habs]
    rw [splitSlash_append b "." hb.2.2.2, splitSlash_no_slash "." (by decide)]
    have hfilter : List.filter (fun c => decide (c ≠ "" ∧ c ≠ ".")) [b, "."] = [b] := by
      simp only [List.filter, decide_eq_true_eq]
      rw [decide_eq_true (show b ≠ "" ∧ b ≠ "." from ⟨hb.1, hb.2.1⟩)]
      simp
    rw [hfilter]
    rw [foldl_normCompsStep_no_dotdot false [b]
      (by intro x hx; rw [List.mem_singleton.mp hx]; exact hb.2.2.1) []]
    simp only [List.nil_append, intercalateSlash, Bool.false_eq_true, if_false]
    rw [if_neg hb.1]
  | cons c1 cs1 =>
    have hrel : relPathStr (c1 :: cs1) = intercalateSlash (c1 :: cs1) := by
      simp [relPathStr]
    have hc1 := hc c1 (List.mem_cons_self c1 cs1)
    rw [hrel, joinPath_of_plain_parts b (intercalateSlash (c1 :: cs1)) hb.1 hlast
      (intercalate_no_abs c1 cs1 hc1), ← intercalateSlash_cons_cons]
    refine normpath_intercalate_plain (b :: c1 :: cs1) (by simp) ?_
    intro x hx
    rcases List.mem_cons.mp hx with rfl | hx2
    · exact hb
    · exact hc x hx2

theorem target_startsWith_firstBase (b0 : String) (rel : List String) (fb : String) (hb0 : plainComp b0)
    (hrel : ∀ c ∈ rel, plainComp c) (hfb : ('/' : Char) ∉ fb.data) :
    pyStartsWith (joinPath (normpath (joinPath b0 (relPathStr rel))) fb)
      (b0 ++ "/") = true := by
  rw [normpath_join_plain b0 rel hb0 hrel]
  have hplain : ∀ c ∈ b0 :: rel, plainComp c := by
    intro c hc
    rcases List.mem_cons.mp hc with rfl | hc2
    · exact hb0
    · exact hrel c hc2
  rw [joinPath_of_plain_parts _ _ (intercalate_ne_empty b0 rel hb0.1)
    (intercalate_getLast_ne_slash (b0 :: rel) hplain) (pyStartsWith_slash_false fb hfb)]
  rw [pyStartsWith_iff]
  cases rel with
  | nil =>
    refine ⟨fb.data, ?_⟩
    simp [intercalateSlash, String.data_append]
  | cons c1 cs1 =>
    refine ⟨(intercalateSlash (c1 :: cs1)).data ++ '/' :: fb.data, ?_⟩
    rw [intercalateSlash_cons_cons]
    simp [String.data_append]

theorem foldl_stepTrg_ne (ms : List SrcMatch) (t : String) (ht : t ≠ "") :
    List.foldl stepTrg t ms = t := by
  induction ms with
  | nil => rfl
  | cons m ms ih =>
    have hstep : stepTrg t m = t := by
      cases m with
      | file p => rfl
      | dir q wq => simp [stepTrg, ht]
    simp only [List.foldl_cons, hstep]
    exact ih

theorem foldl_stepTrg_empty (pre : List SrcMatch)
    (hplain : ∀ q wq, SrcMatch.dir q wq ∈ pre → basename q ≠ "") :
    List.foldl stepTrg "" pre = (firstDirBase pre).getD "" := by
  induction pre with
  | nil => rfl
  | cons m ms ih =>
    cases m with
    | file p =>
      simp only [List.foldl_cons, stepTrg, firstDirBase]
      exact ih (fun q wq hq => hplain q wq (List.mem_cons_of_mem _ hq))
    | dir q wq =>
      have hq := hplain q wq (List.mem_cons_self _ _)
      have hstep : stepTrg "" (SrcMatch.dir q wq) = basename q := by
        simp [stepTrg]
      simp only [List.foldl_cons]
      rw [hstep, foldl_stepTrg_ne ms (basename q) hq]
      rfl

theorem expandMatches_append (t : String) (xs ys : List SrcMatch) :
    expandMatches t (xs ++ ys)
      = expandMatches t xs ++ expandMatches (List.foldl stepTrg t xs) ys := by
  induction xs generalizing t with
  | nil => simp [expandMatches]
  | cons m ms ih =>
    simp only [List.cons_append, expandMatches, List.foldl_cons, List.append_eq]
    rw [ih (stepTrg t m)]
    simp [List.append_assoc]

/-- C6 as amended: with an empty target-directory, the default is computed
once — from the *first* matched directory — and then persists for every
later match of the same spec (the source reassigns the loop-carried
`trg_root_dir`).  Hence every record a directory match emits has its target
prefixed by the first matched directory's basename (not necessarily its
own). -/
theorem C6_amended_first_dir_basename_target
    (pre post : List SrcMatch) (p : String) (w : List WalkEntry)
    (hb0 : plainComp ((firstDirBase pre).getD (basename p)))
    (hpre : ∀ q wq, SrcMatch.dir q wq ∈ pre → basename q ≠ "")
    (hw : ∀ e ∈ w, (∀ c ∈ e.rel, plainComp c) ∧ ∀ f ∈ e.files, ('/' : Char) ∉ f.data) :
    ∀ rec ∈ expandMatch (List.foldl stepTrg "" pre) (SrcMatch.dir p w),
      rec ∈ expandMatches "" (pre ++ SrcMatch.dir p w :: post)
      ∧ pyStartsWith rec.1 (((firstDirBase pre).getD (basename p)) ++ "/") = true := by
  have htrg : List.foldl stepTrg "" pre = (firstDirBase pre).getD "" :=
    foldl_stepTrg_empty pre hpre
  have htrg' : (if List.foldl stepTrg "" pre = "" then basename p
      else List.foldl stepTrg "" pre) = (firstDirBase pre).getD (basename p) := by
    rw [htrg]
    rcases hfd : firstDirBase pre with _ | q
    · simp
    · rw [hfd] at hb0
      have hq : q ≠ "" := by simpa using hb0.1
      simp only [Option.getD_some]
      rw [if_neg hq]
  intro rec hrec
  refine ⟨?_, ?_⟩
  · rw [expandMatches_append]
    refine List.mem_append.mpr (Or.inr ?_)
    simp only [expandMatches]
    exact List.mem_append.mpr (Or.inl hrec)
  · simp only [expandMatch] at hrec
    rw [htrg'] at hrec
    obtain ⟨lst, hlst, hrl⟩ := List.mem_flatten.mp hrec
    obtain ⟨e, he, rfl⟩ := List.mem_map.mp hlst
    obtain ⟨fb, hfb, rfl⟩ := List.mem_map.mp hrl
    exact target_startsWith_firstBase _ e.rel fb hb0 (hw e he).1 ((hw e he).2 fb hfb)

/-- C6 counterexample: one data spec with an empty target-directory whose
glob matches the two directories `/a/p1` and `/a/p2`.  The record emitted for
`g.txt`, a file under the matched directory `/a/p2`, has target
`p1/g.txt` — prefixed with the *first* directory's basename, not with its own
directory's basename `p2` (the source reassigns the loop-carried
`trg_root_dir` at the first directory and never resets it). -/
theorem C6_counterexample :
    formatHookDatas [exampleSpecC6]
      = Except.ok [("p1/f.txt", "/a/p1/f.txt"), ("p1/g.txt", "/a/p2/g.txt")]
    ∧ pyStartsWith "p1/g.txt" ("p2" ++ "/") = false := by
  refine ⟨rfl, by decide⟩

/-- C6 witness for the amended theorem: in the two-directory spec the record
for the second directory is part of the spec's output and is prefixed by the
first directory's basename. -/
theorem C6_amended_witness :
    ("p1/g.txt", "/a/p2/g.txt")
        ∈ expandMatches "" ([SrcMatch.dir "/a/p1" [⟨[], ["f.txt"]⟩]]
            ++ SrcMatch.dir "/a/p2" [⟨[], ["g.txt"]⟩] :: [])
    ∧ pyStartsWith "p1/g.txt"
        (((firstDirBase [SrcMatch.dir "/a/p1" [⟨[], ["f.txt"]⟩]]).getD
          (basename "/a/p2")) ++ "/") = true := by
  have h := C6_amended_first_dir_basename_target
    [SrcMatch.dir "/a/p1" [⟨[], ["f.txt"]⟩]] []
    "/a/p2" [⟨[], ["g.txt"]⟩]
    (by decide)
    (by
      intro q wq hq
      injection List.mem_singleton.mp hq with h1 h2
      subst h1
      decide)
    (by
      intro e he
      rw [List.mem_singleton.mp he]
      exact ⟨fun c hc => absurd hc (List.not_mem_nil c), by decide⟩)
    ("p1/g.txt", "/a/p2/g.txt")
    (by decide)
  exact h

/-- C7: data expansion fails fatally on no match.  If any spec of the list
expands to no filesystem paths, `_format_hook_datas` raises
`FileNotFoundError` — the whole call yields no records at all, so in
particular zero records for that spec. -/
theorem C7_data_glob_no_match_fatal (specs : List DataSpec) (s : DataSpec)
    (hs : s ∈ specs) (hempty : s.globMatches = []) :
    (formatHookDatas specs).toOption = none := by
  induction specs with
  | nil => cases hs
  | cons a rest ih =>
    rcases List.mem_cons.mp hs with rfl | hmem
    · unfold formatHookDatas
      rw [if_pos hempty]
      rfl
    · unfold formatHookDatas
      by_cases ha : a.globMatches = []
      · rw [if_pos ha]
        rfl
      · rw [if_neg ha]
        have hrest := ih hmem
        rcases hrec : formatHookDatas rest with msg | recs
        · rfl
        · rw [hrec] at hrest
          simp [Except.toOption] at hrest

/-- C7 witness: a single spec whose source matches nothing makes the call
signal the fatal condition and emit no records. -/
theorem C7_data_glob_no_match_fatal_witness :
    (formatHookDatas [⟨"pkg-data-glob", [], "lib"⟩]).toOption = none :=
  C7_data_glob_no_match_fatal [⟨"pkg-data-glob", [], "lib"⟩] ⟨"pkg-data-glob", [], "lib"⟩
    (List.mem_singleton.mpr rfl) rfl
